import Mathlib

/-
  A shallow embedding of `src/lega.js`, a CLI tool managing an "update
  directory" with mirrored `old/` and `new/` subtrees.

  Filesystem trees are modelled by `FsTree`/`EntryList` (a directory is an
  ordered association list of named children, mirroring `fs.readdirSync`
  enumeration order; names in a real directory are unique, captured by the
  decidable `wellFormed` predicate).  Fallible filesystem calls
  (`readdirSync` on a file, `readFileSync` on a directory, `unlinkSync` on a
  directory) are modelled with `Except String`, the string being the error
  kind.  `Buffer.prototype.toString()` (UTF-8 lossy decoding, used by the
  `compare` command) is modelled by `utf8DecodeLossy` following the WHATWG
  decoder that Node implements.
-/

namespace Lega

mutual

/-- A filesystem node: a regular file with byte content, or a directory. -/
inductive FsTree where
  | file (content : List Nat)
  | dir (entries : EntryList)

/-- The ordered children of a directory, as (name, node) pairs. -/
inductive EntryList where
  | nil
  | cons (name : String) (tree : FsTree) (rest : EntryList)

end

/-- First entry with the given name, if any (models path resolution of
`path.join(dir, name)` and membership in the `Set` of `readdirSync` names). -/
def findEntry : EntryList → String → Option FsTree
  | .nil, _ => none
  | .cons n t rest, m => if n = m then some t else findEntry rest m

/-- Whether a directory listing contains the given name
(`new Set(files.map(f => f.name)).has(name)` in the source). -/
def hasName (es : EntryList) (m : String) : Bool :=
  (findEntry es m).isSome

/-- Membership of a (name, tree) pair in a directory listing. -/
def entryMem (m : String) (u : FsTree) : EntryList → Prop
  | .nil => False
  | .cons n t rest => (m = n ∧ u = t) ∨ entryMem m u rest

/-- Every entry of `es` is found (first) under its name in `es₀`. -/
def subAssoc (es es₀ : EntryList) : Prop :=
  ∀ n t, entryMem n t es → findEntry es₀ n = some t

/-- The node is a regular file. -/
def isFile : FsTree → Bool
  | .file _ => true
  | .dir _ => false

/-- The node is a directory. -/
def isDir : FsTree → Bool
  | .dir _ => true
  | .file _ => false

mutual

/-- A real filesystem tree: names inside each directory are distinct. -/
def wellFormed : FsTree → Bool
  | .file _ => true
  | .dir es => entriesWellFormed es

/-- Well-formedness of a directory listing: no duplicate names, and every
child tree well-formed. -/
def entriesWellFormed : EntryList → Bool
  | .nil => true
  | .cons n t rest => !hasName rest n && wellFormed t && entriesWellFormed rest

end

/-- Resolve a relative path (list of segments) inside a tree. -/
def lookupPath : FsTree → List String → Option FsTree
  | t, [] => some t
  | .file _, _ :: _ => none
  | .dir es, n :: p =>
    match findEntry es n with
    | some t => lookupPath t p
    | none => none

/-- `fs.existsSync` at a relative path inside a tree. -/
def existsPath (t : FsTree) (p : List String) : Bool :=
  (lookupPath t p).isSome

/-- The relative path designates a regular file or nothing (it does not
designate a directory). -/
def fileOrAbsent (t : FsTree) (p : List String) : Bool :=
  match lookupPath t p with
  | none => true
  | some (.file _) => true
  | some (.dir _) => false

/-- Lossy UTF-8 decoding of a byte sequence into a code-point sequence,
modelling Node's `Buffer.prototype.toString()` (the WHATWG decoder: invalid
subsequences are replaced by U+FFFD, a failing byte is reprocessed, a
truncated sequence at end of input yields a single U+FFFD).  Two buffers are
`===` as JS strings exactly when their decodings are equal. -/
def utf8DecodeLossy : List Nat → List Nat
  | [] => []
  | b :: bs =>
    if b ≤ 0x7F then b :: utf8DecodeLossy bs
    else if b < 0xC2 then 0xFFFD :: utf8DecodeLossy bs
    else if b ≤ 0xDF then
      match bs with
      | [] => [0xFFFD]
      | b1 :: bs1 =>
        if 0x80 ≤ b1 ∧ b1 ≤ 0xBF then
          ((b % 0x20) * 0x40 + (b1 % 0x40)) :: utf8DecodeLossy bs1
        else 0xFFFD :: utf8DecodeLossy (b1 :: bs1)
    else if b ≤ 0xEF then
      match bs with
      | [] => [0xFFFD]
      | b1 :: bs1 =>
        if (if b = 0xE0 then 0xA0 else 0x80) ≤ b1 ∧ b1 ≤ (if b = 0xED then 0x9F else 0xBF) then
          match bs1 with
          | [] => [0xFFFD]
          | b2 :: bs2 =>
            if 0x80 ≤ b2 ∧ b2 ≤ 0xBF then
              ((b % 0x10) * 0x1000 + (b1 % 0x40) * 0x40 + (b2 % 0x40)) :: utf8DecodeLossy bs2
            else 0xFFFD :: utf8DecodeLossy (b2 :: bs2)
        else 0xFFFD :: utf8DecodeLossy (b1 :: bs1)
    else if b ≤ 0xF4 then
      match bs with
      | [] => [0xFFFD]
      | b1 :: bs1 =>
        if (if b = 0xF0 then 0x90 else 0x80) ≤ b1 ∧ b1 ≤ (if b = 0xF4 then 0x8F else 0xBF) then
          match bs1 with
          | [] => [0xFFFD]
          | b2 :: bs2 =>
            if 0x80 ≤ b2 ∧ b2 ≤ 0xBF then
              match bs2 with
              | [] => [0xFFFD]
              | b3 :: bs3 =>
                if 0x80 ≤ b3 ∧ b3 ≤ 0xBF then
                  ((b % 0x8) * 0x40000 + (b1 % 0x40) * 0x1000 + (b2 % 0x40) * 0x40 + (b3 % 0x40))
                    :: utf8DecodeLossy bs3
                else 0xFFFD :: utf8DecodeLossy (b3 :: bs3)
            else 0xFFFD :: utf8DecodeLossy (b2 :: bs2)
        else 0xFFFD :: utf8DecodeLossy (b1 :: bs1)
    else 0xFFFD :: utf8DecodeLossy bs

/-- One log line of the `compare` command.  Each constructor carries the
relative path at which the log is emitted (the source has it at hand as
`oldFilePath` resp. `path.join(newPath, file.name)`; the `differs` log line
prints only `file.name`, but is emitted at path `oldPath ++ [name]`). -/
inductive DiffEntry where
  | dirMissingInNew (p : List String)
  | fileMissingInNew (p : List String)
  | differs (p : List String)
  | missingInOld (p : List String)
deriving DecidableEq, Repr

/-- The second `forEach` of `compareFilesRecursively`: every new-side name
absent from the old-side name set is reported missing in old (the log says
"File ... is missing in old" even for directories, as in the source). -/
def missingInOldEntries (newPath : List String) (oldEs : EntryList) : EntryList → List DiffEntry
  | .nil => []
  | .cons n _ rest =>
    (if hasName oldEs n then [] else [DiffEntry.missingInOld (newPath ++ [n])])
      ++ missingInOldEntries newPath oldEs rest

mutual

/-- `compareFilesRecursively(oldPath, newPath)` from the source.  Both sides
are read with `readdirSync` (which throws `ENOTDIR` on a file); log lines are
returned in emission order.  On the error path the lines logged before the
throw are not recorded, only the error. -/
def compareFilesRecursively (oldPath newPath : List String) :
    FsTree → FsTree → Except String (List DiffEntry)
  | .file _, _ => .error "ENOTDIR"
  | .dir _, .file _ => .error "ENOTDIR"
  | .dir oldEs, .dir newEs =>
    match compareOldEntries oldPath newPath newEs oldEs with
    | .error e => .error e
    | .ok fromOld => .ok (fromOld ++ missingInOldEntries newPath oldEs newEs)

/-- The first `forEach` of `compareFilesRecursively`, over the old-side
entries: a directory recurses when the name exists on the new side (throwing
`ENOTDIR` if the new side is a file) and is otherwise reported missing; a
file missing on the new side is reported missing, and otherwise both
contents are read (`readFileSync` throws `EISDIR` on a directory) and
`differs` is emitted when the decoded strings are not `===`. -/
def compareOldEntries (oldPath newPath : List String) (newEs : EntryList) :
    EntryList → Except String (List DiffEntry)
  | .nil => .ok []
  | .cons n t rest =>
    match t with
    | .dir _ =>
      match findEntry newEs n with
      | some t₂ =>
        match compareFilesRecursively (oldPath ++ [n]) (newPath ++ [n]) t t₂ with
        | .error e => .error e
        | .ok sub =>
          match compareOldEntries oldPath newPath newEs rest with
          | .error e => .error e
          | .ok more => .ok (sub ++ more)
      | none =>
        match compareOldEntries oldPath newPath newEs rest with
        | .error e => .error e
        | .ok more => .ok (DiffEntry.dirMissingInNew (oldPath ++ [n]) :: more)
    | .file c₁ =>
      match findEntry newEs n with
      | none =>
        match compareOldEntries oldPath newPath newEs rest with
        | .error e => .error e
        | .ok more => .ok (DiffEntry.fileMissingInNew (oldPath ++ [n]) :: more)
      | some (.file c₂) =>
        match compareOldEntries oldPath newPath newEs rest with
        | .error e => .error e
        | .ok more =>
          .ok ((if utf8DecodeLossy c₁ = utf8DecodeLossy c₂ then []
                else [DiffEntry.differs (oldPath ++ [n])]) ++ more)
      | some (.dir _) => .error "EISDIR"

end

/-- `listFilesRecursively` of the `list` command: depth-first file paths in
enumeration order, directories not included. -/
def listFilesEntries (base : List String) : EntryList → List (List String)
  | .nil => []
  | .cons n t rest =>
    (match t with
     | .file _ => [base ++ [n]]
     | .dir es => listFilesEntries (base ++ [n]) es)
      ++ listFilesEntries base rest

/-- The `list <updateDir> <version>` command over the update directory's
entries: `existsSync` check on `root/<version>` (reported as `NotFound`),
then a recursive listing (`readdirSync` throws `ENOTDIR` if the version
path names a file). -/
def listCmd (rootEs : EntryList) (version : String) : Except String (List (List String)) :=
  match findEntry rootEs version with
  | none => .error "NotFound"
  | some (.file _) => .error "ENOTDIR"
  | some (.dir es) => .ok (listFilesEntries [version] es)

mutual

/-- `copyDirectory(src, dest)` with a fresh destination, returning the tree
written at `dest`: `mkdirSync(dest)`, then every entry is copied
(`copyFileSync` for files, recursion for directories).  `readdirSync`
throws `ENOTDIR` when `src` is a file. -/
def copyDirectory : FsTree → Except String FsTree
  | .file _ => .error "ENOTDIR"
  | .dir es =>
    match copyEntries es with
    | .error e => .error e
    | .ok es' => .ok (.dir es')

/-- The entry loop of `copyDirectory`. -/
def copyEntries : EntryList → Except String EntryList
  | .nil => .ok .nil
  | .cons n t rest =>
    match t with
    | .file c =>
      match copyEntries rest with
      | .error e => .error e
      | .ok rest' => .ok (.cons n (.file c) rest')
    | .dir _ =>
      match copyDirectory t with
      | .error e => .error e
      | .ok t' =>
        match copyEntries rest with
        | .error e => .error e
        | .ok rest' => .ok (.cons n t' rest')

end

/-- The `backup <updateDir>` command: a full copy of the update directory
into a fresh sibling directory (the timestamp naming is not modelled);
returns the backup tree. -/
def backupCmd (root : FsTree) : Except String FsTree :=
  copyDirectory root

/-- `deleteDirectory(dir)` of the `restore` command, on an optional node (a
missing directory is a no-op thanks to the `existsSync` guard; `readdirSync`
throws `ENOTDIR` on a file; deleting a directory tree always succeeds). -/
def deleteDirectory : Option FsTree → Except String (Option FsTree)
  | none => .ok none
  | some (.file _) => .error "ENOTDIR"
  | some (.dir _) => .ok none

/-- The `restore <updateDir> <backupDir>` command: `existsSync` on the
backup (`NotFound` on absence, update directory untouched), then
`deleteDirectory(fullPath)` followed by `copyDirectory(backupPath,
fullPath)`.  Returns the resulting state of the update directory together
with the reported outcome; a copy failure happens after the deletion, so the
update directory is then gone. -/
def restoreCmd (root backup : Option FsTree) : Option FsTree × Except String Unit :=
  match backup with
  | none => (root, .error "NotFound")
  | some b =>
    match deleteDirectory root with
    | .error e => (root, .error e)
    | .ok _ =>
      match copyDirectory b with
      | .error e => (none, .error e)
      | .ok t => (some t, .ok ())

/-- One log line of the `remove` command: `Removed <path>` or
`<path> does not exist.`. -/
inductive RemoveReport where
  | removed (p : List String)
  | absent (p : List String)
deriving DecidableEq, Repr

/-- Remove the first entry with the given name. -/
def eraseEntry : EntryList → String → EntryList
  | .nil, _ => .nil
  | .cons n t rest, m => if n = m then rest else .cons n t (eraseEntry rest m)

/-- Replace the tree of the first entry with the given name. -/
def replaceEntry : EntryList → String → FsTree → EntryList
  | .nil, _, _ => .nil
  | .cons n t rest, m, u => if n = m then .cons n u rest else .cons n t (replaceEntry rest m u)

/-- `fs.unlinkSync` at a relative path inside a tree: fails with `EISDIR`
when the target is a directory, and with `ENOENT` when it is absent (the
source only calls it behind an `existsSync` guard). -/
def unlinkPath : FsTree → List String → Except String FsTree
  | _, [] => .error "EISDIR"
  | .file _, _ :: _ => .error "ENOENT"
  | .dir es, [n] =>
    match findEntry es n with
    | some (.file _) => .ok (.dir (eraseEntry es n))
    | some (.dir _) => .error "EISDIR"
    | none => .error "ENOENT"
  | .dir es, n :: p₁ :: p₂ =>
    match findEntry es n with
    | some t =>
      match unlinkPath t (p₁ :: p₂) with
      | .error e => .error e
      | .ok t' => .ok (.dir (replaceEntry es n t'))
    | none => .error "ENOENT"

/-- `removeFileIfExists` of the `remove` command on one subtree: unlink when
present (reporting `Removed`), reported no-op otherwise.  `tag` is the
subtree name (`old` or `new`) so that reports carry the logged path. -/
def removeFileIfExists (t : FsTree) (tag : String) (p : List String) :
    Except String (FsTree × RemoveReport) :=
  if existsPath t p then
    match unlinkPath t p with
    | .error e => .error e
    | .ok t' => .ok (t', .removed (tag :: p))
  else .ok (t, .absent (tag :: p))

/-- The `remove <updateDir> <filePath>` command: `removeFileIfExists` on the
old subtree, then on the new subtree (an exception in the first aborts the
second, as in the source). -/
def removeCmd (oldT newT : FsTree) (p : List String) :
    Except String (FsTree × FsTree × List RemoveReport) :=
  match removeFileIfExists oldT "old" p with
  | .error e => .error e
  | .ok (o', r₁) =>
    match removeFileIfExists newT "new" p with
    | .error e => .error e
    | .ok (n', r₂) => .ok (o', n', [r₁, r₂])

/-- `String.prototype.trim()`: drop whitespace from both ends. -/
def jsTrim (s : String) : String :=
  ⟨((s.data.dropWhile Char.isWhitespace).reverse.dropWhile Char.isWhitespace).reverse⟩

/-- `String.prototype.toLowerCase()` (on the ASCII range relevant here). -/
def jsToLower (s : String) : String :=
  ⟨s.data.map Char.toLower⟩

/-- `askConfirmation`: the reply confirms exactly when
`answer.trim().toLowerCase() === "y"`. -/
def askConfirmation (answer : String) : Bool :=
  jsToLower (jsTrim answer) == "y"

/-- One (localFilePath, remoteFilePath) pair of the upload plan produced by
`listFiles`. -/
structure TransferItem where
  localFilePath : List String
  remoteFilePath : List String
deriving DecidableEq, Repr

/-- Outcome of a push session. -/
inductive PushOutcome where
  | completed
  | cancelled
  | failed
deriving DecidableEq, Repr

/-- Result of a push session: outcome, the items whose upload succeeded (in
order), and the items handed to the transport (in order). -/
structure PushResult where
  outcome : PushOutcome
  uploaded : List TransferItem
  attempted : List TransferItem
deriving DecidableEq, Repr

/-- The `for (const file of filesToUpload) await uploadFile(...)` loop: each
item is sent to the transport only after the previous one fully succeeded; a
rejected upload aborts the loop.  Returns (successfully uploaded items,
first failing item if any). -/
def runUploads (upload : TransferItem → Bool) :
    List TransferItem → List TransferItem × Option TransferItem
  | [] => ([], none)
  | f :: fs =>
    if upload f then
      (f :: (runUploads upload fs).1, (runUploads upload fs).2)
    else ([], some f)

/-- Index of the first item of the plan the transport would fail on. -/
def firstFailIdx (upload : TransferItem → Bool) : List TransferItem → Option Nat
  | [] => none
  | f :: fs => if upload f then (firstFailIdx upload fs).map (· + 1) else some 0

/-- The confirm-then-upload part of the `push` command over a computed plan:
`askConfirmation` gates the sequential upload loop; answering anything but
yes cancels with no uploads; a per-item failure fails the session, items
after it are never attempted and earlier ones are kept. -/
def pushSession (plan : List TransferItem) (answer : String)
    (upload : TransferItem → Bool) : PushResult :=
  if askConfirmation answer then
    match runUploads upload plan with
    | (us, none) => ⟨.completed, us, us⟩
    | (us, some f) => ⟨.failed, us, us ++ [f]⟩
  else ⟨.cancelled, [], []⟩

/-- Length of the longest common segment run shared by two resolved paths
(used by `path.relative`). -/
def commonPrefixLen : List String → List String → Nat
  | a :: as, b :: bs => if a = b then commonPrefixLen as bs + 1 else 0
  | _, _ => 0

/-- `path.relative(base, target)` on resolved absolute segment lists: climb
out of the uncommon part of `base` with `..` segments, then descend into the
uncommon part of `target`. -/
def relativeSegs (base target : List String) : List String :=
  List.replicate (base.length - commonPrefixLen base target) ".."
    ++ target.drop (commonPrefixLen base target)

/-- The normalization `path.join` applies: each `..` segment removes the
preceding segment (clamped at the root). -/
def normalizeSegs (segs : List String) : List String :=
  segs.foldl (fun acc s => if s = ".." then acc.dropLast else acc ++ [s]) []

/-- Destination path of the `add` command inside one subtree:
`path.join(join(fullPath, side), path.relative(cwd, filePath))`, all paths
as resolved absolute segment lists. -/
def addDest (cwd rootDir : List String) (side : String) (filePath : List String) :
    List String :=
  normalizeSegs (rootDir ++ [side] ++ relativeSegs cwd filePath)

/-- Whether `q` lies inside the subtree rooted at `base` (strictly below it). -/
def insideSubtree (base q : List String) : Bool :=
  decide (q.take base.length = base) && decide (base.length < q.length)

/-- `..` does not occur among the segments (true of any resolved path). -/
def noDotDot (segs : List String) : Bool :=
  !segs.contains ".."

/-! ### Helper lemmas about directory listings -/

/-- Induction over a directory listing alone (children are not recursed
into), the eliminator used by the `induction` tactic for `EntryList`. -/
@[induction_eliminator]
theorem EntryList.induct {motive : EntryList → Prop} (nil : motive .nil)
    (cons : ∀ (n : String) (t : FsTree) (rest : EntryList),
      motive rest → motive (.cons n t rest)) :
    ∀ es, motive es :=
  @EntryList.rec (fun _ => True) motive (fun _ => trivial) (fun _ _ => trivial)
    nil (fun n t rest _ h => cons n t rest h)

theorem hasName_cons_of (m n : String) (t : FsTree) (rest : EntryList)
    (h : hasName rest m = true) : hasName (.cons n t rest) m = true := by
  simp only [hasName, findEntry]
  split
  · rfl
  · exact h

theorem entryMem_hasName (m : String) (u : FsTree) :
    ∀ es : EntryList, entryMem m u es → hasName es m = true := by
  intro es
  induction es with
  | nil => intro h; simp [entryMem] at h
  | cons n t rest ih =>
    intro h
    simp only [entryMem] at h
    rcases h with ⟨h1, _⟩ | h
    · simp [hasName, findEntry, h1.symm]
    · exact hasName_cons_of m n t rest (ih h)

theorem entriesWellFormed_cons (n : String) (t : FsTree) (rest : EntryList) :
    entriesWellFormed (.cons n t rest) = true ↔
      hasName rest n = false ∧ wellFormed t = true ∧ entriesWellFormed rest = true := by
  simp [entriesWellFormed, Bool.and_eq_true, Bool.not_eq_true', and_assoc]

theorem findEntry_eq_none_of_hasName (es : EntryList) (n : String)
    (h : hasName es n = false) : findEntry es n = none := by
  cases hf : findEntry es n with
  | none => rfl
  | some u => rw [hasName, hf] at h; simp at h

theorem hasName_eq_false_of_findEntry (es : EntryList) (n : String)
    (h : findEntry es n = none) : hasName es n = false := by
  simp [hasName, h]

theorem findEntry_wellFormed :
    ∀ (es : EntryList) (n : String) (u : FsTree),
      entriesWellFormed es = true → findEntry es n = some u → wellFormed u = true := by
  intro es
  induction es with
  | nil => intro n u _ h; simp [findEntry] at h
  | cons m t rest ih =>
    intro n u hwf hf
    rw [entriesWellFormed_cons] at hwf
    obtain ⟨_, hwt, hwrest⟩ := hwf
    simp only [findEntry] at hf
    split at hf
    · cases hf; exact hwt
    · exact ih n u hwrest hf

theorem wf_subAssoc :
    ∀ es : EntryList, entriesWellFormed es = true → subAssoc es es := by
  intro es
  induction es with
  | nil => intro _ n t h; simp [entryMem] at h
  | cons m t rest ih =>
    intro hwf n u h
    rw [entriesWellFormed_cons] at hwf
    obtain ⟨hnm, _, hwrest⟩ := hwf
    simp only [entryMem] at h
    rcases h with ⟨h1, h2⟩ | h
    · subst h1; subst h2; simp [findEntry]
    · have hne : m ≠ n := by
        intro he
        have := entryMem_hasName n u rest h
        rw [← he] at this
        rw [this] at hnm
        cases hnm
      simp only [findEntry, if_neg hne]
      exact ih hwrest n u h

theorem subAssoc_tail (m : String) (t : FsTree) (rest es₀ : EntryList)
    (h : subAssoc (.cons m t rest) es₀) : subAssoc rest es₀ := by
  intro n u hm
  exact h n u (Or.inr hm)

theorem subAssoc_head (m : String) (t : FsTree) (rest es₀ : EntryList)
    (h : subAssoc (.cons m t rest) es₀) : findEntry es₀ m = some t :=
  h m t (Or.inl ⟨rfl, rfl⟩)

/-! ### Claim C9: the confirmation predicate -/

/-- Claim C9: the push is confirmed if and only if the answer, after trimming
whitespace and lowercasing, is exactly the single character `y`; any other
reply (including `yes` and the empty line) counts as "no". -/
theorem claim9_confirm_iff_y :
    ∀ answer : String,
      (askConfirmation answer = true ↔ jsToLower (jsTrim answer) = "y") ∧
      askConfirmation "yes" = false ∧
      askConfirmation "" = false ∧
      askConfirmation " Y " = true := by
  intro answer
  refine ⟨?_, by decide, by decide, by decide⟩
  simp [askConfirmation]

/-! ### Claims C4 and C5: the push session -/

/-- Claim C4: when the confirmation prompt is answered "no", the push session
ends cancelled and no upload is issued to the transport. -/
theorem claim4_cancel_no_uploads :
    ∀ (plan : List TransferItem) (answer : String) (upload : TransferItem → Bool),
      askConfirmation answer = false →
      pushSession plan answer upload = ⟨.cancelled, [], []⟩ := by
  intro plan answer upload h
  simp [pushSession, h]

/-- Witness for C4: the §8 scenario, one-item plan and answer `n`. -/
theorem claim4_cancel_no_uploads_witness :
    askConfirmation "n" = false ∧
      pushSession [⟨["u1", "new", "a.txt"], ["base", "a.txt"]⟩] "n" (fun _ => true) =
        ⟨.cancelled, [], []⟩ :=
  ⟨by decide, claim4_cancel_no_uploads [⟨["u1", "new", "a.txt"], ["base", "a.txt"]⟩] "n"
    (fun _ => true) (by decide)⟩

theorem runUploads_eq (upload : TransferItem → Bool) :
    ∀ plan : List TransferItem,
      runUploads upload plan =
        match firstFailIdx upload plan with
        | none => (plan, none)
        | some k => (plan.take k, plan[k]?) := by
  intro plan
  induction plan with
  | nil => rfl
  | cons f fs ih =>
    by_cases h : upload f = true
    · simp only [runUploads, firstFailIdx, if_pos h, ih]
      cases hf : firstFailIdx upload fs with
      | none => simp
      | some k => simp [List.take_succ_cons]
    · have h' : upload f = false := by simpa using h
      simp [runUploads, firstFailIdx, h']

theorem firstFailIdx_some (upload : TransferItem → Bool) :
    ∀ (plan : List TransferItem) (k : Nat),
      firstFailIdx upload plan = some k → ∃ f, plan[k]? = some f ∧ upload f = false := by
  intro plan
  induction plan with
  | nil => intro k h; simp [firstFailIdx] at h
  | cons f fs ih =>
    intro k h
    simp only [firstFailIdx] at h
    by_cases hu : upload f = true
    · rw [if_pos hu] at h
      cases hf : firstFailIdx upload fs with
      | none => rw [hf] at h; simp at h
      | some k' =>
        rw [hf] at h
        simp only [Option.map_some'] at h
        obtain ⟨g, hg, hgu⟩ := ih k' hf
        cases h
        exact ⟨g, by simpa using hg, hgu⟩
    · have hu' : upload f = false := by simpa using hu
      rw [if_neg (by simp [hu'])] at h
      cases h
      exact ⟨f, by simp, hu'⟩

/-- Claim C5: after a confirmed push, the items handed to the transport form
an initial segment of the plan handed over one at a time; without failures
the session completes with the whole plan uploaded; the first per-item
failure fails the session, items after it are never attempted, and the items
already uploaded are kept (not rolled back). -/
theorem claim5_sequential_fail_fast :
    ∀ (plan : List TransferItem) (answer : String) (upload : TransferItem → Bool),
      askConfirmation answer = true →
      (∃ rest, (pushSession plan answer upload).attempted ++ rest = plan) ∧
      (firstFailIdx upload plan = none →
        pushSession plan answer upload = ⟨.completed, plan, plan⟩) ∧
      (∀ k, firstFailIdx upload plan = some k →
        (pushSession plan answer upload).outcome = .failed ∧
        (pushSession plan answer upload).attempted = plan.take (k + 1) ∧
        (pushSession plan answer upload).uploaded = plan.take k) := by
  intro plan answer upload h
  have hcompl : firstFailIdx upload plan = none →
      pushSession plan answer upload = ⟨.completed, plan, plan⟩ := by
    intro hn
    simp only [pushSession, if_pos h, runUploads_eq, hn]
  have hfail : ∀ k, firstFailIdx upload plan = some k →
      pushSession plan answer upload = ⟨.failed, plan.take k, plan.take (k + 1)⟩ := by
    intro k hk
    obtain ⟨f, hf, _⟩ := firstFailIdx_some upload plan k hk
    have htake : plan.take (k + 1) = plan.take k ++ [f] := by
      rw [List.take_succ, hf]
      rfl
    simp only [pushSession, if_pos h, runUploads_eq, hk, hf, htake]
  refine ⟨?_, hcompl, ?_⟩
  · cases hk : firstFailIdx upload plan with
    | none => exact ⟨[], by rw [hcompl hk]; exact List.append_nil plan⟩
    | some k => exact ⟨plan.drop (k + 1), by rw [hfail k hk]; exact List.take_append_drop _ plan⟩
  · intro k hk
    rw [hfail k hk]
    exact ⟨rfl, rfl, rfl⟩

/-- Witness for C5: a confirmed two-item plan whose second upload fails. -/
theorem claim5_sequential_fail_fast_witness :
    askConfirmation "y" = true ∧
      firstFailIdx (fun f => f.localFilePath ≠ ["b"]) [⟨["a"], ["ra"]⟩, ⟨["b"], ["rb"]⟩] = some 1 ∧
      (pushSession [⟨["a"], ["ra"]⟩, ⟨["b"], ["rb"]⟩] "y"
          (fun f => f.localFilePath ≠ ["b"])).outcome = .failed ∧
      (pushSession [⟨["a"], ["ra"]⟩, ⟨["b"], ["rb"]⟩] "y"
          (fun f => f.localFilePath ≠ ["b"])).attempted =
        ([⟨["a"], ["ra"]⟩, ⟨["b"], ["rb"]⟩] : List TransferItem).take 2 ∧
      (pushSession [⟨["a"], ["ra"]⟩, ⟨["b"], ["rb"]⟩] "y"
          (fun f => f.localFilePath ≠ ["b"])).uploaded =
        ([⟨["a"], ["ra"]⟩, ⟨["b"], ["rb"]⟩] : List TransferItem).take 1 :=
  ⟨by decide, by decide,
    (claim5_sequential_fail_fast [⟨["a"], ["ra"]⟩, ⟨["b"], ["rb"]⟩] "y"
      (fun f => f.localFilePath ≠ ["b"]) (by decide)).2.2 1 (by decide)⟩

/-! ### Claim C2: the list command -/

/-- Claim C2 (amended): `list` fails with `NotFound` exactly when
`root/<version>` is absent; the version string itself is never validated, so
any version naming an existing directory is accepted and listed (not just
`old`/`new`). -/
theorem claim2_list_no_version_validation :
    ∀ (rootEs : EntryList) (version : String),
      (listCmd rootEs version = .error "NotFound" ↔ findEntry rootEs version = none) ∧
      (∀ es, findEntry rootEs version = some (.dir es) →
        listCmd rootEs version = .ok (listFilesEntries [version] es)) := by
  intro rootEs version
  refine ⟨⟨?_, ?_⟩, ?_⟩
  · intro h
    cases hf : findEntry rootEs version with
    | none => rfl
    | some u =>
      cases u with
      | file c =>
        have he : listCmd rootEs version = .error "ENOTDIR" := by simp [listCmd, hf]
        rw [he] at h
        simp only [Except.error.injEq] at h
        exact absurd h (by decide)
      | dir es =>
        have he : listCmd rootEs version = .ok (listFilesEntries [version] es) := by
          simp [listCmd, hf]
        rw [he] at h
        simp at h
  · intro h
    simp [listCmd, h]
  · intro es h
    simp [listCmd, h]

/-- Witness for C2: a version directory named neither `old` nor `new` is
accepted and listed. -/
theorem claim2_list_no_version_validation_witness :
    listCmd (.cons "other" (.dir .nil) .nil) "other" = .ok (listFilesEntries ["other"] .nil) :=
  (claim2_list_no_version_validation (.cons "other" (.dir .nil) .nil) "other").2 .nil rfl

/-- Counterexample to C2 as stated: `list` accepts the version string
`other` (neither `old` nor `new`) when the directory `root/other` exists. -/
theorem claim2_counterexample :
    listCmd (.cons "other" (.dir .nil) .nil) "other" = .ok [] ∧
    ("other" : String) ≠ "old" ∧ ("other" : String) ≠ "new" :=
  ⟨rfl, by decide, by decide⟩

/-! ### Claim C3: mixed file/directory names in compare -/

theorem compareOldEntries_mixed_error :
    ∀ (oldEs : EntryList) (po pn : List String) (newEs : EntryList)
      (n : String) (t₁ t₂ : FsTree),
      entryMem n t₁ oldEs → findEntry newEs n = some t₂ →
      ((isFile t₁ && isDir t₂) || (isDir t₁ && isFile t₂)) = true →
      ∃ e, compareOldEntries po pn newEs oldEs = .error e := by
  intro oldEs
  induction oldEs with
  | nil => intro po pn newEs n t₁ t₂ hm _ _; simp [entryMem] at hm
  | cons m t rest ih =>
    intro po pn newEs n t₁ t₂ hm hf hmix
    simp only [entryMem] at hm
    rcases hm with ⟨h1, h2⟩ | hm
    · subst h1; subst h2
      cases t₁ with
      | file c =>
        obtain ⟨es₂, rfl⟩ : ∃ es₂, t₂ = .dir es₂ := by
          cases t₂ with
          | file _ => simp [isFile, isDir] at hmix
          | dir es₂ => exact ⟨es₂, rfl⟩
        exact ⟨"EISDIR", by simp [compareOldEntries, hf]⟩
      | dir es₁ =>
        obtain ⟨c₂, rfl⟩ : ∃ c₂, t₂ = .file c₂ := by
          cases t₂ with
          | file c₂ => exact ⟨c₂, rfl⟩
          | dir _ => simp [isFile, isDir] at hmix
        exact ⟨"ENOTDIR", by simp [compareOldEntries, hf, compareFilesRecursively]⟩
    · obtain ⟨e, he⟩ := ih po pn newEs n t₁ t₂ hm hf hmix
      cases t with
      | file c =>
        cases hfe : findEntry newEs m with
        | none => exact ⟨e, by simp [compareOldEntries, hfe, he]⟩
        | some u =>
          cases u with
          | file c₂ => exact ⟨e, by simp [compareOldEntries, hfe, he]⟩
          | dir _ => exact ⟨"EISDIR", by simp [compareOldEntries, hfe]⟩
      | dir es₁ =>
        cases hfe : findEntry newEs m with
        | none => exact ⟨e, by simp [compareOldEntries, hfe, he]⟩
        | some u =>
          cases hsub : compareFilesRecursively (po ++ [m]) (pn ++ [m]) (.dir es₁) u with
          | error e' => exact ⟨e', by simp [compareOldEntries, hfe, hsub]⟩
          | ok subOut => exact ⟨e, by simp [compareOldEntries, hfe, hsub, he]⟩

/-- Claim C3 (amended): when a name is a file on one side and a directory on
the other, `compare` does not classify it: it raises a filesystem error
(`readdirSync` on the file, or `readFileSync` on the directory) which aborts
the command. -/
theorem claim3_mixed_type_raises :
    ∀ (po pn : List String) (oldEs newEs : EntryList) (n : String) (t₁ t₂ : FsTree),
      entryMem n t₁ oldEs → findEntry newEs n = some t₂ →
      ((isFile t₁ && isDir t₂) || (isDir t₁ && isFile t₂)) = true →
      ∃ e, compareFilesRecursively po pn (.dir oldEs) (.dir newEs) = .error e := by
  intro po pn oldEs newEs n t₁ t₂ hm hf hmix
  obtain ⟨e, he⟩ := compareOldEntries_mixed_error oldEs po pn newEs n t₁ t₂ hm hf hmix
  exact ⟨e, by simp [compareFilesRecursively, he]⟩

/-- Witness for C3 (amended): old side has file `x`, new side has directory
`x`; compare raises an error. -/
theorem claim3_mixed_type_raises_witness :
    ∃ e, compareFilesRecursively [] [] (.dir (.cons "x" (.file []) .nil))
      (.dir (.cons "x" (.dir .nil) .nil)) = .error e :=
  claim3_mixed_type_raises [] [] (.cons "x" (.file []) .nil) (.cons "x" (.dir .nil) .nil)
    "x" (.file []) (.dir .nil) (Or.inl ⟨rfl, rfl⟩) rfl (by decide)

/-- Counterexample to C3 as stated: a directory `x` in old against a file
`x` in new makes `compare` raise `ENOTDIR` instead of classifying the name
as `differs`. -/
theorem claim3_counterexample :
    compareFilesRecursively [] [] (.dir (.cons "x" (.dir .nil) .nil))
      (.dir (.cons "x" (.file []) .nil)) = .error "ENOTDIR" := rfl

/-! ### Claim C10: destinations of the add command -/

theorem noDotDot_iff (l : List String) : noDotDot l = true ↔ ".." ∉ l := by
  simp [noDotDot]

theorem foldl_step_no_dotdot :
    ∀ (l acc : List String), ".." ∉ l →
      l.foldl (fun acc s => if s = ".." then acc.dropLast else acc ++ [s]) acc = acc ++ l := by
  intro l
  induction l with
  | nil => intro acc _; simp
  | cons a l ih =>
    intro acc h
    have ha : ¬(a = "..") := fun he => h (he ▸ List.mem_cons_self a l)
    simp only [List.foldl_cons, if_neg ha]
    rw [ih (acc ++ [a]) (fun hm => h (List.mem_cons_of_mem a hm))]
    simp

theorem normalizeSegs_no_dotdot (l : List String) (h : noDotDot l = true) :
    normalizeSegs l = l := by
  have := foldl_step_no_dotdot l [] ((noDotDot_iff l).mp h)
  simpa [normalizeSegs] using this

theorem commonPrefixLen_append (as bs : List String) :
    commonPrefixLen as (as ++ bs) = as.length := by
  induction as with
  | nil => rfl
  | cons a as ih => simp [commonPrefixLen, ih]

theorem commonPrefixLen_le (as : List String) :
    ∀ bs : List String, commonPrefixLen as bs ≤ as.length := by
  induction as with
  | nil => intro bs; cases bs <;> simp [commonPrefixLen]
  | cons a as ih =>
    intro bs
    cases bs with
    | nil => simp [commonPrefixLen]
    | cons b bs =>
      simp only [commonPrefixLen, List.length_cons]
      split
      · exact Nat.succ_le_succ (ih bs)
      · exact Nat.zero_le _

theorem take_eq_of_commonPrefixLen_eq_length :
    ∀ (as bs : List String), commonPrefixLen as bs = as.length → bs.take as.length = as := by
  intro as
  induction as with
  | nil => intro bs _; simp
  | cons a as ih =>
    intro bs h
    cases bs with
    | nil => simp [commonPrefixLen] at h
    | cons b bs =>
      simp only [commonPrefixLen, List.length_cons] at h
      by_cases hab : a = b
      · rw [if_pos hab] at h
        have h' : commonPrefixLen as bs = as.length := by omega
        simp [List.take_succ_cons, ih bs h', hab]
      · rw [if_neg hab] at h
        omega

theorem relativeSegs_dotdot_of_not_under (cwd fp : List String)
    (h : fp.take cwd.length ≠ cwd) :
    ∃ rest, relativeSegs cwd fp = ".." :: rest := by
  have hlt : commonPrefixLen cwd fp < cwd.length :=
    Nat.lt_of_le_of_ne (commonPrefixLen_le cwd fp)
      (fun he => h (take_eq_of_commonPrefixLen_eq_length cwd fp he))
  refine ⟨List.replicate (cwd.length - commonPrefixLen cwd fp - 1) ".."
    ++ fp.drop (commonPrefixLen cwd fp), ?_⟩
  unfold relativeSegs
  have he : cwd.length - commonPrefixLen cwd fp =
      (cwd.length - commonPrefixLen cwd fp - 1) + 1 := by omega
  rw [he, List.replicate_succ]
  simp

/-- Claim C10 (amended): the destination of `add` inside each subtree is
`join(root/<side>, relative(cwd, filePath))`.  A filePath strictly under the
cwd lands inside the subtree; a filePath outside the cwd makes the relative
path begin with `..`, and such destinations can escape the `old`/`new`
subtrees (they are not guaranteed to: some outside filePaths still land
inside a subtree). -/
theorem claim10_add_dest :
    ∀ (cwd rootDir fp : List String) (side : String),
      noDotDot rootDir = true → side ≠ ".." →
      (∀ r, r ≠ [] → noDotDot r = true → fp = cwd ++ r →
        addDest cwd rootDir side fp = rootDir ++ [side] ++ r ∧
        insideSubtree (rootDir ++ [side]) (addDest cwd rootDir side fp) = true) ∧
      (fp.take cwd.length ≠ cwd → ∃ rest, relativeSegs cwd fp = ".." :: rest) ∧
      (∃ cwd₀ root₀ fp₀ : List String,
        fp₀.take cwd₀.length ≠ cwd₀ ∧
        insideSubtree (root₀ ++ ["old"]) (addDest cwd₀ root₀ "old" fp₀) = false ∧
        insideSubtree (root₀ ++ ["new"]) (addDest cwd₀ root₀ "new" fp₀) = false) := by
  intro cwd rootDir fp side hroot hside
  refine ⟨?_, relativeSegs_dotdot_of_not_under cwd fp, ?_⟩
  · intro r hr hrd hfp
    subst hfp
    have hrel : relativeSegs cwd (cwd ++ r) = r := by
      unfold relativeSegs
      rw [commonPrefixLen_append]
      simp [List.drop_left]
    have hdest : addDest cwd rootDir side (cwd ++ r) = rootDir ++ [side] ++ r := by
      unfold addDest
      rw [hrel]
      refine normalizeSegs_no_dotdot _ ?_
      rw [noDotDot_iff] at hroot hrd ⊢
      simp only [List.mem_append, List.mem_singleton]
      rintro (⟨hc | hc⟩ | hc)
      · exact hroot hc
      · exact hside hc.symm
      · exact hrd hc
    refine ⟨hdest, ?_⟩
    rw [hdest]
    simp only [insideSubtree, Bool.and_eq_true, decide_eq_true_eq]
    constructor
    · exact List.take_left (rootDir ++ [side]) r
    · rw [List.length_append (rootDir ++ [side]) r]
      have : 0 < r.length := List.length_pos.mpr hr
      omega
  · exact ⟨["a"], ["a", "u"], ["b", "f"], by decide, by decide, by decide⟩

/-- Witness for C10 (amended): a filePath under the cwd lands inside the
`old` subtree. -/
theorem claim10_add_dest_witness :
    addDest ["a"] ["a", "u"] "old" (["a"] ++ ["x", "f"]) = ["a", "u"] ++ ["old"] ++ ["x", "f"] ∧
    insideSubtree (["a", "u"] ++ ["old"])
      (addDest ["a"] ["a", "u"] "old" (["a"] ++ ["x", "f"])) = true :=
  (claim10_add_dest ["a"] ["a", "u"] (["a"] ++ ["x", "f"]) "old" (by decide) (by decide)).1
    ["x", "f"] (by decide) (by decide) rfl

/-- Counterexample to C10 as stated: with cwd `/a`, update directory
`/a/u`, the outside filePath `/old/f` has relative path `../old/f` and the
copy destination `/a/u/old/f` lies inside the `old` subtree, not outside
it. -/
theorem claim10_counterexample :
    (["old", "f"] : List String).take (["a"] : List String).length ≠ ["a"] ∧
    addDest ["a"] ["a", "u"] "old" ["old", "f"] = ["a", "u", "old", "f"] ∧
    insideSubtree (["a", "u"] ++ ["old"]) (addDest ["a"] ["a", "u"] "old" ["old", "f"]) = true :=
  ⟨by decide, by decide, by decide⟩

/-! ### Copying is the identity on directory trees -/

mutual

theorem copyDirectory_dir_eq (es : EntryList) : copyDirectory (.dir es) = .ok (.dir es) := by
  rw [copyDirectory, copyEntries_eq es]
termination_by sizeOf es + 1

theorem copyEntries_eq (es : EntryList) : copyEntries es = .ok es := by
  cases es with
  | nil => rfl
  | cons n t rest =>
    cases t with
    | file c => rw [copyEntries, copyEntries_eq rest]
    | dir sub => rw [copyEntries, copyDirectory_dir_eq sub, copyEntries_eq rest]
termination_by sizeOf es

end

/-! ### Comparing a well-formed tree with itself yields no output -/

theorem missingInOldEntries_all_present :
    ∀ (es : EntryList) (pn : List String) (es₀ : EntryList),
      (∀ n t, entryMem n t es → hasName es₀ n = true) →
      missingInOldEntries pn es₀ es = [] := by
  intro es
  induction es with
  | nil => intro pn es₀ _; rfl
  | cons n t rest ih =>
    intro pn es₀ h
    have hn : hasName es₀ n = true := h n t (Or.inl ⟨rfl, rfl⟩)
    simp only [missingInOldEntries, hn, if_pos]
    exact ih pn es₀ (fun m u hm => h m u (Or.inr hm))

mutual

theorem compare_refl_tree (es : EntryList) (po pn : List String)
    (hwf : entriesWellFormed es = true) :
    compareFilesRecursively po pn (.dir es) (.dir es) = .ok [] := by
  rw [compareFilesRecursively, compare_refl_entries es es po pn (wf_subAssoc es hwf) hwf]
  rw [missingInOldEntries_all_present es pn es
    (fun n t hm => entryMem_hasName n t es hm)]
  rfl
termination_by sizeOf es + 1

theorem compare_refl_entries (es : EntryList) : ∀ (es₀ : EntryList) (po pn : List String),
    subAssoc es es₀ → entriesWellFormed es = true →
    compareOldEntries po pn es₀ es = .ok [] := by
  cases es with
  | nil => intro es₀ po pn _ _; rfl
  | cons n t rest =>
    intro es₀ po pn hsub hwf
    rw [entriesWellFormed_cons] at hwf
    obtain ⟨_, hwt, hwrest⟩ := hwf
    have hfind : findEntry es₀ n = some t := subAssoc_head n t rest es₀ hsub
    have hrest : compareOldEntries po pn es₀ rest = .ok [] :=
      compare_refl_entries rest es₀ po pn (subAssoc_tail n t rest es₀ hsub) hwrest
    cases t with
    | file c => simp [compareOldEntries, hfind, hrest]
    | dir sub =>
      have hsubwf : entriesWellFormed sub = true := by
        rw [wellFormed] at hwt
        exact hwt
      simp [compareOldEntries, hfind, hrest,
        compare_refl_tree sub (po ++ [n]) (pn ++ [n]) hsubwf]
termination_by sizeOf es

end

/-! ### Claim C7: copy then diff is empty -/

/-- Claim C7: copying a well-formed directory tree to a fresh destination
and diffing source against destination yields no entries at all. -/
theorem claim7_copy_then_diff_empty :
    ∀ (es : EntryList) (d : FsTree),
      entriesWellFormed es = true →
      copyDirectory (.dir es) = .ok d →
      compareFilesRecursively [] [] (.dir es) d = .ok [] := by
  intro es d hwf hcopy
  rw [copyDirectory_dir_eq es] at hcopy
  cases hcopy
  exact compare_refl_tree es [] [] hwf

/-- Witness for C7 on a two-entry tree with a nested directory. -/
theorem claim7_copy_then_diff_empty_witness :
    compareFilesRecursively [] []
      (.dir (.cons "a" (.file [1, 2]) (.cons "d" (.dir (.cons "b" (.file []) .nil)) .nil)))
      (.dir (.cons "a" (.file [1, 2]) (.cons "d" (.dir (.cons "b" (.file []) .nil)) .nil)))
      = .ok [] :=
  claim7_copy_then_diff_empty
    (.cons "a" (.file [1, 2]) (.cons "d" (.dir (.cons "b" (.file []) .nil)) .nil))
    (.dir (.cons "a" (.file [1, 2]) (.cons "d" (.dir (.cons "b" (.file []) .nil)) .nil)))
    rfl rfl

/-! ### Claim C6: restore -/

/-- Claim C6: `restore` fails with `NotFound` leaving the update directory
unchanged when the backup is absent; with an existing backup directory it
deletes the update directory entirely and replaces it with a full copy of
the backup; and after `backup(root)` followed by `restore` of that backup,
diffing the tree before backup against the tree after restore is empty. -/
theorem claim6_restore_roundtrip :
    ∀ (root : Option FsTree) (es bes : EntryList),
      (root = none ∨ ∃ es₀, root = some (.dir es₀)) →
      entriesWellFormed es = true →
      restoreCmd root none = (root, .error "NotFound") ∧
      restoreCmd root (some (.dir bes)) = (some (.dir bes), .ok ()) ∧
      (∀ b, backupCmd (.dir es) = .ok b →
        restoreCmd root (some b) = (some (.dir es), .ok ()) ∧
        compareFilesRecursively [] [] (.dir es) (.dir es) = .ok []) := by
  intro root es bes hroot hwf
  have hrestore : ∀ bes' : EntryList,
      restoreCmd root (some (.dir bes')) = (some (.dir bes'), .ok ()) := by
    intro bes'
    have hdel : deleteDirectory root = .ok none := by
      rcases hroot with rfl | ⟨es₀, rfl⟩
      · rfl
      · rfl
    simp [restoreCmd, hdel, copyDirectory_dir_eq bes']
  refine ⟨rfl, hrestore bes, ?_⟩
  intro b hb
  rw [backupCmd, copyDirectory_dir_eq es] at hb
  cases hb
  exact ⟨hrestore es, compare_refl_tree es [] [] hwf⟩

/-- Witness for C6 at concrete trees: empty update directory, backup of a
one-file tree. -/
theorem claim6_restore_roundtrip_witness :
    restoreCmd (some (.dir .nil)) none = (some (.dir .nil), .error "NotFound") ∧
    restoreCmd (some (.dir .nil)) (some (.dir .nil)) = (some (.dir .nil), .ok ()) ∧
    (restoreCmd (some (.dir .nil)) (some (.dir (.cons "a" (.file [7]) .nil))) =
        (some (.dir (.cons "a" (.file [7]) .nil)), .ok ()) ∧
      compareFilesRecursively [] [] (.dir (.cons "a" (.file [7]) .nil))
        (.dir (.cons "a" (.file [7]) .nil)) = .ok []) :=
  ⟨(claim6_restore_roundtrip (some (.dir .nil)) .nil .nil (Or.inr ⟨.nil, rfl⟩) rfl).1,
    (claim6_restore_roundtrip (some (.dir .nil)) .nil .nil (Or.inr ⟨.nil, rfl⟩) rfl).2.1,
    (claim6_restore_roundtrip (some (.dir .nil)) (.cons "a" (.file [7]) .nil) .nil
      (Or.inr ⟨.nil, rfl⟩) rfl).2.2 (.dir (.cons "a" (.file [7]) .nil)) rfl⟩

/-! ### Claim C8: the remove command -/

theorem findEntry_eraseEntry_self :
    ∀ (es : EntryList) (n : String), entriesWellFormed es = true →
      findEntry (eraseEntry es n) n = none := by
  intro es
  induction es with
  | nil => intro n _; rfl
  | cons m t rest ih =>
    intro n hwf
    rw [entriesWellFormed_cons] at hwf
    obtain ⟨hn, _, hrest⟩ := hwf
    simp only [eraseEntry]
    split
    · rename_i hmn
      rw [← hmn]
      exact findEntry_eq_none_of_hasName rest m hn
    · rename_i hmn
      simp only [findEntry, if_neg hmn]
      exact ih n hrest

theorem findEntry_replaceEntry_self :
    ∀ (es : EntryList) (n : String) (u' u : FsTree),
      findEntry es n = some u → findEntry (replaceEntry es n u') n = some u' := by
  intro es
  induction es with
  | nil => intro n u' u h; simp [findEntry] at h
  | cons m t rest ih =>
    intro n u' u h
    simp only [findEntry] at h
    simp only [replaceEntry]
    split
    · rename_i hmn
      simp [findEntry, hmn]
    · rename_i hmn
      rw [if_neg hmn] at h
      simp only [findEntry, if_neg hmn]
      exact ih n u' u h

theorem unlinkPath_lookup_none :
    ∀ (p : List String) (t : FsTree) (c : List Nat),
      wellFormed t = true → lookupPath t p = some (.file c) → p ≠ [] →
      ∃ t', unlinkPath t p = .ok t' ∧ lookupPath t' p = none := by
  intro p
  induction p with
  | nil => intro t c _ _ hne; exact absurd rfl hne
  | cons n p' ih =>
    intro t c hwf hlook _
    cases t with
    | file c₀ => simp [lookupPath] at hlook
    | dir es =>
      simp only [lookupPath] at hlook
      cases hfe : findEntry es n with
      | none => rw [hfe] at hlook; simp at hlook
      | some u =>
        rw [hfe] at hlook
        have hwfes : entriesWellFormed es = true := by rw [wellFormed] at hwf; exact hwf
        cases p' with
        | nil =>
          have hu : u = .file c := by
            simp only [lookupPath] at hlook
            cases hlook
            rfl
          subst hu
          refine ⟨.dir (eraseEntry es n), ?_, ?_⟩
          · simp [unlinkPath, hfe]
          · simp [lookupPath, findEntry_eraseEntry_self es n hwfes]
        | cons p₁ p₂ =>
          have hwu : wellFormed u = true := findEntry_wellFormed es n u hwfes hfe
          obtain ⟨t', ht', hlookt'⟩ := ih u c hwu hlook (by simp)
          refine ⟨.dir (replaceEntry es n t'), ?_, ?_⟩
          · simp [unlinkPath, hfe, ht']
          · simp [lookupPath, findEntry_replaceEntry_self es n t' u hfe, hlookt']

theorem removeFileIfExists_absent (t : FsTree) (tag : String) (p : List String)
    (h : lookupPath t p = none) :
    removeFileIfExists t tag p = .ok (t, .absent (tag :: p)) := by
  simp [removeFileIfExists, existsPath, h]

theorem removeFileIfExists_spec :
    ∀ (es : EntryList) (tag : String) (p : List String),
      entriesWellFormed es = true → fileOrAbsent (.dir es) p = true →
      ∃ t', removeFileIfExists (.dir es) tag p =
          .ok (t', if existsPath (.dir es) p then .removed (tag :: p) else .absent (tag :: p)) ∧
        lookupPath t' p = none := by
  intro es tag p hwf hfa
  by_cases hex : existsPath (.dir es) p = true
  · obtain ⟨c, hl⟩ : ∃ c, lookupPath (.dir es) p = some (.file c) := by
      unfold fileOrAbsent at hfa
      unfold existsPath at hex
      cases hl : lookupPath (.dir es) p with
      | none => rw [hl] at hex; simp at hex
      | some u =>
        cases u with
        | file c => exact ⟨c, rfl⟩
        | dir _ => rw [hl] at hfa; simp at hfa
    have hp : p ≠ [] := by
      intro h
      subst h
      simp [lookupPath] at hl
    obtain ⟨t', ht', hlook⟩ :=
      unlinkPath_lookup_none p (.dir es) c (by rw [wellFormed]; exact hwf) hl hp
    refine ⟨t', ?_, hlook⟩
    rw [if_pos hex]
    simp [removeFileIfExists, hex, ht']
  · have hex' : existsPath (.dir es) p = false := by simpa using hex
    have hnone : lookupPath (.dir es) p = none := by
      unfold existsPath at hex'
      cases hl : lookupPath (.dir es) p with
      | none => rfl
      | some u => rw [hl] at hex'; simp at hex'
    refine ⟨.dir es, ?_, hnone⟩
    rw [if_neg (by simp [hex'])]
    exact removeFileIfExists_absent (.dir es) tag p hnone

/-- Claim C8: `remove` deletes the file at the given relative path from both
subtrees when present, reporting presence or absence per side; an absent
path is a reported no-op and never an error, so a second `remove` succeeds
as a double no-op and both subtrees stay without the path. -/
theorem claim8_remove_idempotent :
    ∀ (oldEs newEs : EntryList) (p : List String),
      entriesWellFormed oldEs = true → entriesWellFormed newEs = true →
      fileOrAbsent (.dir oldEs) p = true → fileOrAbsent (.dir newEs) p = true →
      ∃ o' n',
        removeCmd (.dir oldEs) (.dir newEs) p =
          .ok (o', n',
            [if existsPath (.dir oldEs) p then .removed ("old" :: p) else .absent ("old" :: p),
             if existsPath (.dir newEs) p then .removed ("new" :: p) else .absent ("new" :: p)]) ∧
        lookupPath o' p = none ∧ lookupPath n' p = none ∧
        removeCmd o' n' p = .ok (o', n', [.absent ("old" :: p), .absent ("new" :: p)]) := by
  intro oldEs newEs p hwfo hwfn hfao hfan
  obtain ⟨o', ho', hlo⟩ := removeFileIfExists_spec oldEs "old" p hwfo hfao
  obtain ⟨n', hn', hln⟩ := removeFileIfExists_spec newEs "new" p hwfn hfan
  refine ⟨o', n', ?_, hlo, hln, ?_⟩
  · rw [removeCmd, ho', hn']
  · rw [removeCmd, removeFileIfExists_absent o' "old" p hlo,
      removeFileIfExists_absent n' "new" p hln]

/-- Witness for C8: remove `f`, present in old and absent in new. -/
theorem claim8_remove_idempotent_witness :
    ∃ o' n',
      removeCmd (.dir (.cons "f" (.file [1]) .nil)) (.dir .nil) ["f"] =
        .ok (o', n',
          [if existsPath (.dir (.cons "f" (.file [1]) .nil)) ["f"] then .removed ["old", "f"]
           else .absent ["old", "f"],
           if existsPath (.dir .nil) ["f"] then .removed ["new", "f"]
           else .absent ["new", "f"]]) ∧
      lookupPath o' ["f"] = none ∧ lookupPath n' ["f"] = none ∧
      removeCmd o' n' ["f"] = .ok (o', n', [.absent ["old", "f"], .absent ["new", "f"]]) :=
  claim8_remove_idempotent (.cons "f" (.file [1]) .nil) .nil ["f"] rfl rfl rfl rfl

/-! ### Claim C1: what compare reports for file pairs -/

theorem missingInOld_no_differs :
    ∀ (es : EntryList) (pn : List String) (es₀ : EntryList) (q : List String),
      DiffEntry.differs q ∉ missingInOldEntries pn es₀ es := by
  intro es
  induction es with
  | nil => intro pn es₀ q h; simp [missingInOldEntries] at h
  | cons n t rest ih =>
    intro pn es₀ q h
    simp only [missingInOldEntries, List.mem_append] at h
    rcases h with h | h
    · split at h <;> simp at h
    · exact ih pn es₀ q h

/-- Case analysis of one step of the old-side entry loop, given that it
succeeded. -/
theorem compareOldEntries_cons_ok :
    ∀ (po pn : List String) (newEs : EntryList) (m : String) (t : FsTree)
      (rest : EntryList) (out : List DiffEntry),
      compareOldEntries po pn newEs (.cons m t rest) = .ok out →
      ∃ piece more, out = piece ++ more ∧ compareOldEntries po pn newEs rest = .ok more ∧
        ((∃ subEs t₂ subOut, t = .dir subEs ∧ findEntry newEs m = some t₂ ∧
            compareFilesRecursively (po ++ [m]) (pn ++ [m]) t t₂ = .ok subOut ∧
            piece = subOut) ∨
         (∃ subEs, t = .dir subEs ∧ findEntry newEs m = none ∧
            piece = [DiffEntry.dirMissingInNew (po ++ [m])]) ∨
         (∃ c₁, t = .file c₁ ∧ findEntry newEs m = none ∧
            piece = [DiffEntry.fileMissingInNew (po ++ [m])]) ∨
         (∃ c₁ c₂, t = .file c₁ ∧ findEntry newEs m = some (.file c₂) ∧
            piece = if utf8DecodeLossy c₁ = utf8DecodeLossy c₂ then []
                    else [DiffEntry.differs (po ++ [m])])) := by
  intro po pn newEs m t rest out hok
  cases t with
  | dir subEs =>
    cases hfe : findEntry newEs m with
    | some t₂ =>
      cases hsub : compareFilesRecursively (po ++ [m]) (pn ++ [m]) (.dir subEs) t₂ with
      | error e => simp [compareOldEntries, hfe, hsub] at hok
      | ok subOut =>
        cases hmore : compareOldEntries po pn newEs rest with
        | error e => simp [compareOldEntries, hfe, hsub, hmore] at hok
        | ok more =>
          simp only [compareOldEntries, hfe, hsub, hmore, Except.ok.injEq] at hok
          exact ⟨subOut, more, hok.symm, rfl,
            Or.inl ⟨subEs, t₂, subOut, rfl, rfl, hsub, rfl⟩⟩
    | none =>
      cases hmore : compareOldEntries po pn newEs rest with
      | error e => simp [compareOldEntries, hfe, hmore] at hok
      | ok more =>
        simp only [compareOldEntries, hfe, hmore, Except.ok.injEq] at hok
        exact ⟨[DiffEntry.dirMissingInNew (po ++ [m])], more, hok.symm, rfl,
          Or.inr (Or.inl ⟨subEs, rfl, rfl, rfl⟩)⟩
  | file c₁ =>
    cases hfe : findEntry newEs m with
    | none =>
      cases hmore : compareOldEntries po pn newEs rest with
      | error e => simp [compareOldEntries, hfe, hmore] at hok
      | ok more =>
        simp only [compareOldEntries, hfe, hmore, Except.ok.injEq] at hok
        exact ⟨[DiffEntry.fileMissingInNew (po ++ [m])], more, hok.symm, rfl,
          Or.inr (Or.inr (Or.inl ⟨c₁, rfl, rfl, rfl⟩))⟩
    | some u =>
      cases u with
      | dir _ => simp [compareOldEntries, hfe] at hok
      | file c₂ =>
        cases hmore : compareOldEntries po pn newEs rest with
        | error e => simp [compareOldEntries, hfe, hmore] at hok
        | ok more =>
          simp only [compareOldEntries, hfe, hmore, Except.ok.injEq] at hok
          exact ⟨_, more, hok.symm, rfl,
            Or.inr (Or.inr (Or.inr ⟨c₁, c₂, rfl, rfl, rfl⟩))⟩

mutual

theorem differs_shape_tree (oldEs : EntryList) :
    ∀ (po pn : List String) (newT : FsTree) (out : List DiffEntry) (q : List String),
      compareFilesRecursively po pn (.dir oldEs) newT = .ok out →
      DiffEntry.differs q ∈ out →
      ∃ n s, q = po ++ n :: s ∧ hasName oldEs n = true := by
  intro po pn newT out q hok hmem
  cases newT with
  | file _ => simp [compareFilesRecursively] at hok
  | dir newEs =>
    cases hfrom : compareOldEntries po pn newEs oldEs with
    | error e => simp [compareFilesRecursively, hfrom] at hok
    | ok fromOld =>
      simp only [compareFilesRecursively, hfrom, Except.ok.injEq] at hok
      rw [← hok, List.mem_append] at hmem
      rcases hmem with hmem | hmem
      · exact differs_shape_entries oldEs po pn newEs fromOld q hfrom hmem
      · exact absurd hmem (missingInOld_no_differs newEs pn oldEs q)
termination_by sizeOf oldEs + 1

theorem differs_shape_entries (oldEs : EntryList) :
    ∀ (po pn : List String) (newEs : EntryList) (out : List DiffEntry) (q : List String),
      compareOldEntries po pn newEs oldEs = .ok out →
      DiffEntry.differs q ∈ out →
      ∃ n s, q = po ++ n :: s ∧ hasName oldEs n = true := by
  cases oldEs with
  | nil =>
    intro po pn newEs out q hok hmem
    simp only [compareOldEntries, Except.ok.injEq] at hok
    rw [← hok] at hmem
    simp at hmem
  | cons m t rest =>
    intro po pn newEs out q hok hmem
    obtain ⟨piece, more, hout, hmore, hcases⟩ :=
      compareOldEntries_cons_ok po pn newEs m t rest out hok
    subst hout
    rw [List.mem_append] at hmem
    rcases hmem with hmem | hmem
    · rcases hcases with ⟨subEs, t₂, subOut, rfl, _, hsub, rfl⟩ |
        ⟨subEs, rfl, _, rfl⟩ | ⟨c₁, rfl, _, rfl⟩ | ⟨c₁, c₂, rfl, _, rfl⟩
      · obtain ⟨n', s', hq, _⟩ :=
          differs_shape_tree subEs (po ++ [m]) (pn ++ [m]) t₂ _ q hsub hmem
        refine ⟨m, n' :: s', ?_, by simp [hasName, findEntry]⟩
        rw [hq]
        simp
      · simp at hmem
      · simp at hmem
      · split at hmem
        · simp at hmem
        · simp only [List.mem_singleton, DiffEntry.differs.injEq] at hmem
          exact ⟨m, [], hmem, by simp [hasName, findEntry]⟩
    · obtain ⟨n', s', hq, hn⟩ := differs_shape_entries rest po pn newEs more q hmore hmem
      exact ⟨n', s', hq, hasName_cons_of n' m t rest hn⟩
termination_by sizeOf oldEs

end

mutual

theorem differs_iff_tree (oldEs : EntryList) :
    ∀ (po pn : List String) (newT : FsTree) (out : List DiffEntry),
      compareFilesRecursively po pn (.dir oldEs) newT = .ok out →
      entriesWellFormed oldEs = true →
      ∀ (p : List String) (c₁ c₂ : List Nat),
        lookupPath (.dir oldEs) p = some (.file c₁) →
        lookupPath newT p = some (.file c₂) →
        (DiffEntry.differs (po ++ p) ∈ out ↔ utf8DecodeLossy c₁ ≠ utf8DecodeLossy c₂) := by
  intro po pn newT out hok hwf p c₁ c₂ hl₁ hl₂
  cases newT with
  | file _ => simp [compareFilesRecursively] at hok
  | dir newEs =>
    cases p with
    | nil => simp [lookupPath] at hl₁
    | cons n p' =>
      cases hfrom : compareOldEntries po pn newEs oldEs with
      | error e => simp [compareFilesRecursively, hfrom] at hok
      | ok fromOld =>
        simp only [compareFilesRecursively, hfrom, Except.ok.injEq] at hok
        have hnm : DiffEntry.differs (po ++ n :: p') ∉ missingInOldEntries pn oldEs newEs :=
          missingInOld_no_differs newEs pn oldEs _
        have hiff := differs_iff_entries oldEs po pn newEs fromOld hfrom hwf n p' c₁ c₂ hl₁ hl₂
        rw [← hok, List.mem_append]
        constructor
        · rintro (h | h)
          · exact hiff.mp h
          · exact absurd h hnm
        · intro h
          exact Or.inl (hiff.mpr h)
termination_by sizeOf oldEs + 1

theorem differs_iff_entries (oldEs : EntryList) :
    ∀ (po pn : List String) (newEs : EntryList) (out : List DiffEntry),
      compareOldEntries po pn newEs oldEs = .ok out →
      entriesWellFormed oldEs = true →
      ∀ (n : String) (p : List String) (c₁ c₂ : List Nat),
        lookupPath (.dir oldEs) (n :: p) = some (.file c₁) →
        lookupPath (.dir newEs) (n :: p) = some (.file c₂) →
        (DiffEntry.differs (po ++ n :: p) ∈ out ↔
          utf8DecodeLossy c₁ ≠ utf8DecodeLossy c₂) := by
  cases oldEs with
  | nil =>
    intro po pn newEs out hok hwf n p c₁ c₂ hl₁ hl₂
    simp [lookupPath, findEntry] at hl₁
  | cons m t rest =>
    intro po pn newEs out hok hwf n p c₁ c₂ hl₁ hl₂
    obtain ⟨piece, more, hout, hmore, hcases⟩ :=
      compareOldEntries_cons_ok po pn newEs m t rest out hok
    subst hout
    rw [entriesWellFormed_cons] at hwf
    obtain ⟨hnm, hwt, hwrest⟩ := hwf
    rw [List.mem_append]
    by_cases hmn : n = m
    · subst hmn
      have hl₁' : lookupPath t p = some (.file c₁) := by
        simp only [lookupPath, findEntry, if_pos rfl] at hl₁
        exact hl₁
      have hnot_more : DiffEntry.differs (po ++ n :: p) ∉ more := by
        intro hmem
        obtain ⟨n', s', hq, hn'⟩ := differs_shape_entries rest po pn newEs more _ hmore hmem
        have hq' := List.append_cancel_left hq
        simp only [List.cons.injEq] at hq'
        rw [← hq'.1] at hn'
        rw [hn'] at hnm
        cases hnm
      cases t with
      | file c =>
        cases p with
        | cons q₁ qs => simp [lookupPath] at hl₁'
        | nil =>
          have hc : c = c₁ := by
            simp only [lookupPath, Option.some.injEq, FsTree.file.injEq] at hl₁'
            exact hl₁'
          subst hc
          have hfe₂ : findEntry newEs n = some (.file c₂) := by
            cases hfe : findEntry newEs n with
            | none => simp [lookupPath, hfe] at hl₂
            | some u =>
              cases u with
              | file cu => simp only [lookupPath, hfe, Option.some.injEq] at hl₂; rw [hl₂]
              | dir _ => simp [lookupPath, hfe] at hl₂
          rcases hcases with ⟨subEs, t₂, subOut, ht, _, _, _⟩ |
            ⟨subEs, ht, _, _⟩ | ⟨c₁', ht, hfe', rfl⟩ | ⟨c₁', c₂', ht, hfe', rfl⟩
          · simp at ht
          · simp at ht
          · rw [hfe₂] at hfe'; cases hfe'
          · simp only [FsTree.file.injEq] at ht
            subst ht
            rw [hfe₂] at hfe'
            simp only [Option.some.injEq, FsTree.file.injEq] at hfe'
            subst hfe'
            split
            · rename_i heq
              simp only [List.not_mem_nil, false_or]
              constructor
              · intro hmem; exact absurd hmem hnot_more
              · intro hne; exact absurd heq hne
            · rename_i hne
              simp only [List.mem_cons, List.not_mem_nil, or_false]
              constructor
              · intro _; exact hne
              · intro _; exact Or.inl trivial
      | dir subEs =>
        cases p with
        | nil => simp [lookupPath] at hl₁'
        | cons p₁ p₂ =>
          obtain ⟨subEs₂, hfe₂, hl₂'⟩ :
              ∃ subEs₂, findEntry newEs n = some (.dir subEs₂) ∧
                lookupPath (.dir subEs₂) (p₁ :: p₂) = some (.file c₂) := by
            cases hfe : findEntry newEs n with
            | none => simp [lookupPath, hfe] at hl₂
            | some u =>
              cases u with
              | file cu => simp [lookupPath, hfe] at hl₂
              | dir subEs₂ =>
                refine ⟨subEs₂, rfl, ?_⟩
                simp only [lookupPath, hfe] at hl₂
                exact hl₂
          rcases hcases with ⟨subEs', t₂, subOut, ht, hfe', hsub, rfl⟩ |
            ⟨subEs', ht, hfe', rfl⟩ | ⟨c₁', ht, _, _⟩ | ⟨c₁', c₂', ht, _, _⟩
          · simp only [FsTree.dir.injEq] at ht
            subst ht
            rw [hfe₂] at hfe'
            cases hfe'
            have hsubwf : entriesWellFormed subEs = true := by
              rw [wellFormed] at hwt
              exact hwt
            have hiff := differs_iff_tree subEs (po ++ [n]) (pn ++ [n]) (.dir subEs₂)
              _ hsub hsubwf (p₁ :: p₂) c₁ c₂ hl₁' hl₂'
            have hpath : (po ++ [n]) ++ (p₁ :: p₂) = po ++ n :: p₁ :: p₂ := by simp
            rw [hpath] at hiff
            constructor
            · rintro (h | h)
              · exact hiff.mp h
              · exact absurd h hnot_more
            · intro h
              exact Or.inl (hiff.mpr h)
          · rw [hfe₂] at hfe'; cases hfe'
          · simp at ht
          · simp at ht
    · have hl₁' : lookupPath (.dir rest) (n :: p) = some (.file c₁) := by
        simp only [lookupPath, findEntry] at hl₁ ⊢
        rw [if_neg (fun h => hmn h.symm)] at hl₁
        exact hl₁
      have hiff := differs_iff_entries rest po pn newEs more hmore hwrest n p c₁ c₂ hl₁' hl₂
      have hnot_piece : DiffEntry.differs (po ++ n :: p) ∉ piece := by
        rcases hcases with ⟨subEs, t₂, subOut, ht, hfe, hsub, rfl⟩ |
          ⟨subEs, ht, hfe, rfl⟩ | ⟨c₁', ht, hfe, rfl⟩ | ⟨c₁', c₂', ht, hfe, rfl⟩
        · intro hmem
          rw [ht] at hsub
          obtain ⟨n', s', hq, _⟩ :=
            differs_shape_tree subEs (po ++ [m]) (pn ++ [m]) t₂ _ _ hsub hmem
          rw [List.append_assoc] at hq
          have hq' := List.append_cancel_left hq
          simp only [List.singleton_append, List.cons.injEq] at hq'
          exact hmn hq'.1
        · intro hmem; simp at hmem
        · intro hmem; simp at hmem
        · intro hmem
          split at hmem
          · simp at hmem
          · simp only [List.mem_singleton, DiffEntry.differs.injEq] at hmem
            have hq' := List.append_cancel_left hmem
            simp only [List.cons.injEq] at hq'
            exact hmn hq'.1
      constructor
      · rintro (h | h)
        · exact absurd h hnot_piece
        · exact hiff.mp h
      · intro h
        exact Or.inr (hiff.mpr h)
termination_by sizeOf oldEs

end

/-- Claim C1 (amended): for a pair of files at the same relative path in
both trees, and a compare run that succeeds, a `differs` entry is reported
for that path if and only if the lossy UTF-8 decodings of the two byte
contents differ.  Byte-identical contents decode equally and are never
reported; however, byte-different contents with equal decodings (e.g. two
distinct invalid bytes) are not reported either. -/
theorem claim1_differs_iff_decoded :
    ∀ (oldT newT : FsTree) (out : List DiffEntry) (p : List String) (c₁ c₂ : List Nat),
      wellFormed oldT = true →
      compareFilesRecursively [] [] oldT newT = .ok out →
      lookupPath oldT p = some (.file c₁) →
      lookupPath newT p = some (.file c₂) →
      (DiffEntry.differs p ∈ out ↔ utf8DecodeLossy c₁ ≠ utf8DecodeLossy c₂) := by
  intro oldT newT out p c₁ c₂ hwf hok hl₁ hl₂
  cases oldT with
  | file _ => simp [compareFilesRecursively] at hok
  | dir oldEs =>
    have h := differs_iff_tree oldEs [] [] newT out hok
      (by rw [wellFormed] at hwf; exact hwf) p c₁ c₂ hl₁ hl₂
    simpa using h

/-- Witness for C1 (amended): contents `1` and `2` decode differently and
are reported. -/
theorem claim1_differs_iff_decoded_witness :
    (DiffEntry.differs ["a.txt"] ∈ [DiffEntry.differs ["a.txt"]] ↔
      utf8DecodeLossy [49] ≠ utf8DecodeLossy [50]) :=
  claim1_differs_iff_decoded (.dir (.cons "a.txt" (.file [49]) .nil))
    (.dir (.cons "a.txt" (.file [50]) .nil)) [DiffEntry.differs ["a.txt"]]
    ["a.txt"] [49] [50] rfl rfl rfl rfl

/-- Counterexample to C1 as stated: the files hold the single bytes `0xC3`
and `0xE2`, not byte-identical, yet both decode to a single U+FFFD and
`compare` reports nothing. -/
theorem claim1_counterexample :
    compareFilesRecursively [] [] (.dir (.cons "a.txt" (.file [0xC3]) .nil))
      (.dir (.cons "a.txt" (.file [0xE2]) .nil)) = .ok [] ∧
    ([0xC3] : List Nat) ≠ [0xE2] :=
  ⟨rfl, by decide⟩

end Lega
